import Mathlib

/-!
u8g2_terminal: a scrolling text console over a U8g2 display.

A shallow embedding of `src/terminal.hpp` and `src/terminal.cpp`.

* `uint8_t` fields are natural numbers; a real state has every such field
  below 256.  The only place where 8-bit arithmetic can wrap is the drawing
  cursor `y_pos` of `Terminal_draw`, which is reduced modulo 256 explicitly.
* `std::string` values are lists of characters.
* The calls made on the `U8G2` object are recorded as a list of `DrawCmd`.
* Division by zero in `Terminal_init` and a running-out loop counter in
  `Terminal_print` are the `none` results of those two functions.
-/

namespace U8g2Terminal

/-! ## Data model (`terminal.hpp`) -/

/-- One buffered line: `struct TerminalLine { std::string text; uint8_t font_size; }`. -/
structure TerminalLine where
  text : List Char
  font_size : Nat
deriving DecidableEq, Repr

/-- The terminal: `struct Terminal`.  The field `u8g2` is the pointer to the
display object, `none` standing for `nullptr`. -/
structure Terminal where
  u8g2 : Option Nat
  x : Nat
  y : Nat
  width : Nat
  height : Nat
  font_height : Nat
  max_lines : Nat
  font_size : Nat
  buffer : List TerminalLine
deriving DecidableEq, Repr

/-- The four bitmap fonts of the U8g2 library that `getFontBySize` returns. -/
inductive Font where
  | u8g2_font_6x12_tf
  | u8g2_font_7x13_tf
  | u8g2_font_9x15_tf
  | u8g2_font_10x20_tf
deriving DecidableEq, Repr

/-- A call made on the display object, with its arguments. -/
inductive DrawCmd where
  | setDrawColor (color : Nat)
  | firstPage
  | drawFrame (x y w h : Nat)
  | setFont (font : Font)
  | drawStr (x y : Nat) (text : List Char)
  | nextPage
deriving DecidableEq, Repr

/-! ## Operations (`terminal.cpp`) -/

/-- The font table, `getFontBySize` (lines 20-28). -/
def getFontBySize (size : Nat) : Font :=
  match size with
  | 1 => Font.u8g2_font_6x12_tf
  | 2 => Font.u8g2_font_7x13_tf
  | 3 => Font.u8g2_font_9x15_tf
  | 4 => Font.u8g2_font_10x20_tf
  | _ => Font.u8g2_font_6x12_tf

/-- `Terminal_init` (lines 30-42).  The quotient `height / font_height` of two
8-bit values fits 8 bits; with `font_height = 0` the C++ division is undefined
and the model returns `none`.  `font_size` is not assigned. -/
def Terminal_init (term : Terminal) (u8g2_ref : Nat) (x y width height font_height : Nat) :
    Option Terminal :=
  if font_height = 0 then none
  else some { term with
    u8g2 := some u8g2_ref
    x := x
    y := y
    width := width
    height := height
    font_height := font_height
    max_lines := height / font_height
    buffer := [] }

/-- `Terminal_deinit` (lines 44-51). -/
def Terminal_deinit (term : Terminal) : Terminal :=
  { term with
    u8g2 := none
    buffer := []
    x := 0
    y := 0
    width := 0
    height := 0
    font_height := 0
    max_lines := 0
    font_size := 1 }

/-- `Terminal_clear` (lines 53-55). -/
def Terminal_clear (term : Terminal) : Terminal :=
  { term with buffer := [] }

/-- The two clamping statements of `Terminal_setFontSize` (lines 59-60). -/
def clampSize (size : Nat) : Nat :=
  let size := if size < 1 then 1 else size
  let size := if size > 4 then 4 else size
  size

/-- The `switch` of `Terminal_setFontSize` (lines 63-69). -/
def setFontSize_height (size : Nat) : Nat :=
  match size with
  | 1 => 12
  | 2 => 13
  | 3 => 15
  | 4 => 20
  | _ => 12

/-- `Terminal_setFontSize` (lines 58-71).  The divisor is one of 12, 13, 15,
20, never zero. -/
def Terminal_setFontSize (term : Terminal) (size : Nat) : Terminal :=
  let size := clampSize size
  let font_height := setFontSize_height size
  { term with
    font_size := size
    font_height := font_height
    max_lines := term.height / font_height }

/-- The character at which a C string ends. -/
def NUL : Char := Char.ofNat 0

/-- The line-feed character. -/
def LF : Char := Char.ofNat 10

/-- The constructor `std::string s(msg)` (line 74): the characters of `msg`
before the first NUL. -/
def std_string (msg : List Char) : List Char :=
  msg.takeWhile (fun c => c != NUL)

/-- Scan for `c` in `rest`, whose first element has index `i`. -/
def findFrom (c : Char) : List Char → Nat → Option Nat
  | [], _ => none
  | a :: rest, i => if a = c then some i else findFrom c rest (i + 1)

/-- The call `s.find(c, pos)`: the least index `i ≥ pos` with `s[i] = c`, or
`none` for `std::string::npos`. -/
def string_find (s : List Char) (c : Char) (pos : Nat) : Option Nat :=
  findFrom c (s.drop pos) pos

/-- The call `s.substr(pos, n)`; it throws (`none`) when `pos > s.size()`. -/
def substr (s : List Char) (pos n : Nat) : Option (List Char) :=
  if pos ≤ s.length then some ((s.drop pos).take n) else none

/-- The call `s.substr(pos)`; it throws (`none`) when `pos > s.size()`. -/
def substrFrom (s : List Char) (pos : Nat) : Option (List Char) :=
  if pos ≤ s.length then some (s.drop pos) else none

/-- The splitting loop of `Terminal_print` together with the `push_back` that
follows it (lines 75-80).  The first argument bounds the number of loop tests;
`none` is returned when it runs out or when `substr` throws. -/
def appendLines (s : List Char) (font_size : Nat) :
    Nat → Nat → List TerminalLine → Option (List TerminalLine)
  | 0, _, _ => none
  | fuel + 1, pos, buffer =>
    match string_find s LF pos with
    | some next =>
      match substr s pos (next - pos) with
      | some seg => appendLines s font_size fuel (next + 1) (buffer ++ [⟨seg, font_size⟩])
      | none => none
    | none =>
      match substrFrom s pos with
      | some seg => some (buffer ++ [⟨seg, font_size⟩])
      | none => none

/-- The scrolling loop of `Terminal_print` (lines 83-85): while the buffer is
longer than `max_lines`, erase its first element. -/
def evict (max_lines : Nat) : List TerminalLine → List TerminalLine
  | [] => []
  | line :: rest =>
    if (line :: rest).length > max_lines then evict max_lines rest else line :: rest

/-- `Terminal_print` (lines 73-86).  The loop runs at most once per character
of `s` and once more, so `s.length + 1` tests are allowed. -/
def Terminal_print (term : Terminal) (msg : List Char) : Option Terminal :=
  let s := std_string msg
  match appendLines s term.font_size (s.length + 1) 0 term.buffer with
  | some buffer => some { term with buffer := evict term.max_lines buffer }
  | none => none

/-- The `switch` of the selection loop of `Terminal_draw` (lines 98-105). -/
def select_line_height (font_size : Nat) : Nat :=
  match font_size with
  | 1 => 12
  | 2 => 13
  | 3 => 15
  | 4 => 20
  | _ => 12

/-- The `switch` of the rendering loop of `Terminal_draw` (lines 115-122). -/
def render_line_height (font_size : Nat) : Nat :=
  match font_size with
  | 1 => 12
  | 2 => 13
  | 3 => 15
  | 4 => 20
  | _ => 12

/-- The selection loop of `Terminal_draw` (lines 97-109) over the lines still
to visit (newest first), with the running `total_height` and the
`lines_to_draw` collected so far. -/
def selectLines (height : Nat) : List TerminalLine → Nat → List TerminalLine → List TerminalLine
  | [], _, lines_to_draw => lines_to_draw
  | line :: older, total_height, lines_to_draw =>
    if total_height + select_line_height line.font_size > height then lines_to_draw
    else selectLines height older (total_height + select_line_height line.font_size)
      (lines_to_draw ++ [line])

/-- The rendering loop of `Terminal_draw` (lines 113-125); `y_pos` is 8 bits
wide, the argument `term.x + 2` is computed in `int`. -/
def renderLines (x : Nat) : List TerminalLine → Nat → List DrawCmd
  | [], _ => []
  | line :: rest, y_pos =>
    let y_pos := (y_pos + render_line_height line.font_size) % 256
    DrawCmd.setFont (getFontBySize line.font_size) ::
      DrawCmd.drawStr (x + 2) y_pos line.text :: renderLines x rest y_pos

/-- The lines one pass of `Terminal_draw` selects, in drawing order (lines
95-111). -/
def lines_to_draw (term : Terminal) : List TerminalLine :=
  (selectLines term.height term.buffer.reverse 0 []).reverse

/-- One pass of the page loop of `Terminal_draw` (lines 92-125). -/
def drawPass (term : Terminal) : List DrawCmd :=
  DrawCmd.drawFrame term.x term.y term.width term.height ::
    renderLines term.x (lines_to_draw term) term.y

/-- The page loop `do ... while (nextPage())` when `nextPage` answers true
`more` times. -/
def pageLoop (term : Terminal) : Nat → List DrawCmd
  | 0 => drawPass term ++ [DrawCmd.nextPage]
  | more + 1 => drawPass term ++ DrawCmd.nextPage :: pageLoop term more

/-- `Terminal_draw` (lines 88-127): the terminal after the call (the argument
is a `const` reference) and the calls made on the display. -/
def Terminal_draw (term : Terminal) (more : Nat) : Terminal × List DrawCmd :=
  (term, DrawCmd.setDrawColor 1 :: DrawCmd.firstPage :: pageLoop term more)

/-- The texts passed to `drawStr`, in call order. -/
def drawnTexts : List DrawCmd → List (List Char)
  | [] => []
  | DrawCmd.drawStr _ _ text :: rest => text :: drawnTexts rest
  | _ :: rest => drawnTexts rest

/-! ## Vocabulary of the specification -/

/-- The line-feed-separated segments of a string: a string with `k`
line-feeds has `k + 1` segments, the last of them what follows the last
line-feed. -/
def segments : List Char → List (List Char)
  | [] => [[]]
  | c :: cs =>
    if c = LF then [] :: segments cs
    else
      match segments cs with
      | [] => [[c]]
      | seg :: more => (c :: seg) :: more

/-- Segments as buffer entries of a given font size. -/
def tagged (font_size : Nat) (segs : List (List Char)) : List TerminalLine :=
  segs.map (fun seg => ⟨seg, font_size⟩)

/-- The last `k` entries of a list (all of them when it has fewer). -/
def lastN (k : Nat) (lines : List TerminalLine) : List TerminalLine :=
  lines.drop (lines.length - min k lines.length)

/-- The states after each call of a run of `Terminal_print` calls, one per
message. -/
def printAll : Terminal → List (List Char) → Option (List Terminal)
  | _, [] => some []
  | term, msg :: msgs =>
    match Terminal_print term msg with
    | some term1 => (printAll term1 msgs).map (fun states => term1 :: states)
    | none => none

/-- Summed per-line heights, by each line's own stored font size. -/
def heightSum (lines : List TerminalLine) : Nat :=
  (lines.map (fun line => select_line_height line.font_size)).sum

/-- A call of the interface that changes the terminal, with its arguments. -/
inductive Call where
  | init (u8g2_ref x y width height font_height : Nat)
  | deinit
  | clear
  | setFontSize (size : Nat)
  | print (msg : List Char)
deriving DecidableEq, Repr

/-- The state after one call, `none` when the call does not return one. -/
def step (term : Terminal) : Call → Option Terminal
  | Call.init u8g2_ref x y width height font_height =>
    Terminal_init term u8g2_ref x y width height font_height
  | Call.deinit => some (Terminal_deinit term)
  | Call.clear => some (Terminal_clear term)
  | Call.setFontSize size => some (Terminal_setFontSize term size)
  | Call.print msg => Terminal_print term msg

/-- The state after a sequence of calls, made in list order. -/
def run (term : Terminal) : List Call → Option Terminal
  | [] => some term
  | call :: calls =>
    match step term call with
    | some term1 => run term1 calls
    | none => none

/-- Whether a call is a `Terminal_setFontSize` call. -/
def Call.isSetFontSize : Call → Bool
  | Call.setFontSize _ => true
  | _ => false

/-- Whether a call keeps to its contract: `Terminal_init` needs a positive
`font_height`. -/
def Call.valid : Call → Bool
  | Call.init _ _ _ _ _ font_height => decide (0 < font_height)
  | _ => true

/-- Whether a `switch` over a font size (lines 21-27, 63-69, 99-105 and
116-122 have the same labels) takes its `default` label. -/
def usesFallback (size : Nat) : Bool :=
  match size with
  | 1 => false
  | 2 => false
  | 3 => false
  | 4 => false
  | _ => true

/-- The sizes of a terminal are in range: its current `font_size` and the
stored `font_size` of every buffered line are among 1, 2, 3, 4. -/
def sizesInRange (term : Terminal) : Prop :=
  term.font_size ∈ [1, 2, 3, 4] ∧ ∀ line ∈ term.buffer, line.font_size ∈ [1, 2, 3, 4]

/-- The baseline y-coordinates passed to `drawStr`, in call order. -/
def drawnYs : List DrawCmd → List Nat
  | [] => []
  | DrawCmd.drawStr _ y _ :: rest => y :: drawnYs rest
  | _ :: rest => drawnYs rest

/-- The running totals `y + h₁`, `y + h₁ + h₂`, ... of the heights of a list
of lines, as unbounded integers. -/
def baselines (y : Nat) : List TerminalLine → List Nat
  | [] => []
  | line :: rest =>
    (y + select_line_height line.font_size) ::
      baselines (y + select_line_height line.font_size) rest

/-! ## Lemmas on the splitting loop -/

theorem segments_ne_nil (s : List Char) : segments s ≠ [] := by
  cases s with
  | nil => simp [segments]
  | cons c cs =>
    simp only [segments]
    split
    · simp
    · split <;> simp

theorem findFrom_none_segments (l : List Char) (i : Nat) (h : findFrom LF l i = none) :
    segments l = [l] := by
  induction l generalizing i with
  | nil => rfl
  | cons a rest ih =>
    simp only [findFrom] at h
    split at h
    · cases h
    · rename_i hne
      simp [segments, hne, ih (i + 1) h]

theorem findFrom_some_segments (l : List Char) (i n : Nat) (h : findFrom LF l i = some n) :
    i ≤ n ∧ n - i < l.length ∧
      segments l = l.take (n - i) :: segments (l.drop (n - i + 1)) := by
  induction l generalizing i with
  | nil => simp [findFrom] at h
  | cons a rest ih =>
    simp only [findFrom] at h
    split at h
    · rename_i heq
      cases h
      simp [segments, heq]
    · rename_i hne
      obtain ⟨h1, h2, h3⟩ := ih (i + 1) h
      have e : n - i = (n - (i + 1)) + 1 := by omega
      refine ⟨by omega, by simp only [List.length_cons]; omega, ?_⟩
      rw [e]
      simp [segments, hne, h3]

theorem appendLines_eq (s : List Char) (fs : Nat) (fuel pos : Nat) (buffer : List TerminalLine)
    (hpos : pos ≤ s.length) (hfuel : s.length - pos < fuel) :
    appendLines s fs fuel pos buffer = some (buffer ++ tagged fs (segments (s.drop pos))) := by
  induction fuel generalizing pos buffer with
  | zero => omega
  | succ fuel ih =>
    simp only [appendLines, string_find]
    cases hf : findFrom LF (s.drop pos) pos with
    | none =>
      simp [substrFrom, hpos, findFrom_none_segments _ _ hf, tagged]
    | some next =>
      obtain ⟨h1, h2, h3⟩ := findFrom_some_segments _ _ _ hf
      simp only [List.length_drop] at h2
      simp only [substr, hpos, if_true]
      rw [ih (next + 1) _ (by omega) (by omega), h3]
      have e : pos + (next - pos + 1) = next + 1 := by omega
      simp [tagged, List.drop_drop, e]

theorem evict_eq_drop (max_lines : Nat) (lines : List TerminalLine) :
    evict max_lines lines = lines.drop (lines.length - max_lines) := by
  induction lines with
  | nil => simp [evict]
  | cons line rest ih =>
    simp only [evict]
    split
    · rename_i h
      simp only [List.length_cons] at h
      rw [ih]
      have e : (line :: rest).length - max_lines = (rest.length - max_lines) + 1 := by
        simp only [List.length_cons]; omega
      rw [e, List.drop_succ_cons]
    · rename_i h
      simp only [List.length_cons] at h
      have e : (line :: rest).length - max_lines = 0 := by
        simp only [List.length_cons]; omega
      rw [e, List.drop_zero]

theorem evict_eq_lastN (max_lines : Nat) (lines : List TerminalLine) :
    evict max_lines lines = lastN max_lines lines := by
  rw [evict_eq_drop, lastN]
  congr 1
  omega

theorem evict_length_le (max_lines : Nat) (lines : List TerminalLine) :
    (evict max_lines lines).length ≤ max_lines := by
  rw [evict_eq_drop, List.length_drop]
  omega

theorem Terminal_print_eq (term : Terminal) (msg : List Char) :
    Terminal_print term msg = some { term with
      buffer := evict term.max_lines
        (term.buffer ++ tagged term.font_size (segments (std_string msg))) } := by
  simp only [Terminal_print]
  rw [appendLines_eq _ _ _ 0 _ (Nat.zero_le _) (by omega)]
  simp

/-! ## Lemmas on segments -/

theorem segments_cons_LF (cs : List Char) : segments (LF :: cs) = [] :: segments cs := by
  simp [segments]

theorem segments_cons_other (c : Char) (cs : List Char) (h : c ≠ LF) :
    ∃ seg more, segments cs = seg :: more ∧ segments (c :: cs) = (c :: seg) :: more := by
  cases hs : segments cs with
  | nil => exact absurd hs (segments_ne_nil cs)
  | cons seg more => exact ⟨seg, more, rfl, by simp [segments, h, hs]⟩

theorem segments_length (s : List Char) : (segments s).length = s.count LF + 1 := by
  induction s with
  | nil => rfl
  | cons c cs ih =>
    by_cases h : c = LF
    · subst h
      simp [segments_cons_LF, ih]
    · obtain ⟨seg, more, h1, h2⟩ := segments_cons_other c cs h
      have hc : List.count LF (c :: cs) = List.count LF cs := by
        rw [List.count_cons]
        simp [h]
      rw [h2, hc, ← ih, h1]
      rfl

theorem segments_no_LF (s : List Char) : ∀ seg ∈ segments s, LF ∉ seg := by
  induction s with
  | nil => simp [segments]
  | cons c cs ih =>
    by_cases h : c = LF
    · subst h
      intro seg hseg
      rw [segments_cons_LF] at hseg
      rcases List.mem_cons.mp hseg with rfl | hm
      · simp
      · exact ih seg hm
    · obtain ⟨seg0, more, h1, h2⟩ := segments_cons_other c cs h
      intro seg hseg
      rw [h2] at hseg
      rw [h1] at ih
      rcases List.mem_cons.mp hseg with rfl | hm
      · intro hmem
        rcases List.mem_cons.mp hmem with e | hm0
        · exact h e.symm
        · exact ih seg0 (List.mem_cons_self _ _) hm0
      · exact ih seg (List.mem_cons_of_mem _ hm)

theorem segments_join (s : List Char) : List.intercalate [LF] (segments s) = s := by
  induction s with
  | nil => rfl
  | cons c cs ih =>
    by_cases h : c = LF
    · subst h
      rw [segments_cons_LF]
      cases hs : segments cs with
      | nil => exact absurd hs (segments_ne_nil cs)
      | cons seg more =>
        rw [hs] at ih
        rw [← ih]
        simp [List.intercalate, List.intersperse]
    · obtain ⟨seg, more, h1, h2⟩ := segments_cons_other c cs h
      rw [h2]
      rw [h1] at ih
      rw [← ih]
      cases more <;> simp [List.intercalate, List.intersperse]

theorem segments_append_LF (s : List Char) : segments (s ++ [LF]) = segments s ++ [[]] := by
  induction s with
  | nil => simp [segments]
  | cons c cs ih =>
    by_cases h : c = LF
    · subst h
      simp [segments_cons_LF, ih]
    · obtain ⟨seg, more, h1, h2⟩ := segments_cons_other c cs h
      have e : segments (cs ++ [LF]) = seg :: (more ++ [[]]) := by rw [ih, h1]; rfl
      rw [h2, List.cons_append]
      simp [segments, h, e]

/-! ## Lemmas on the drawing loops -/

theorem heightSum_nil : heightSum [] = 0 := rfl

theorem heightSum_cons (line : TerminalLine) (rest : List TerminalLine) :
    heightSum (line :: rest) = select_line_height line.font_size + heightSum rest := by
  simp [heightSum]

theorem heightSum_append (xs ys : List TerminalLine) :
    heightSum (xs ++ ys) = heightSum xs + heightSum ys := by
  simp [heightSum]

theorem heightSum_reverse (xs : List TerminalLine) : heightSum xs.reverse = heightSum xs := by
  induction xs with
  | nil => rfl
  | cons line rest ih =>
    rw [List.reverse_cons, heightSum_append, heightSum_cons, ih, heightSum_cons, heightSum_nil]
    omega

theorem heightSum_drop_mono (lines : List TerminalLine) (i k : Nat) (h : i ≤ k) :
    heightSum (lines.drop k) ≤ heightSum (lines.drop i) := by
  have e : lines.drop i = (lines.drop i).take (k - i) ++ lines.drop k := by
    have h1 := (List.take_append_drop (k - i) (lines.drop i)).symm
    rw [List.drop_drop] at h1
    have h2 : i + (k - i) = k := by omega
    rw [h2] at h1
    exact h1
  rw [e, heightSum_append]
  omega

theorem selectLines_spec (height : Nat) (ls : List TerminalLine) (total : Nat)
    (acc : List TerminalLine) (htotal : total ≤ height) :
    ∃ j, j ≤ ls.length ∧ selectLines height ls total acc = acc ++ ls.take j ∧
      total + heightSum (ls.take j) ≤ height ∧
      (j < ls.length → height < total + heightSum (ls.take (j + 1))) := by
  induction ls generalizing total acc with
  | nil => exact ⟨0, by simp [selectLines, heightSum_nil, htotal]⟩
  | cons line older ih =>
    by_cases hfit : total + select_line_height line.font_size > height
    · refine ⟨0, Nat.zero_le _, by simp [selectLines, hfit], by simpa [heightSum_nil] using htotal, ?_⟩
      intro _
      simp only [List.take_succ_cons, List.take_zero, heightSum_cons, heightSum_nil]
      omega
    · obtain ⟨j, h1, h2, h3, h4⟩ :=
        ih (total + select_line_height line.font_size) (acc ++ [line]) (by omega)
      refine ⟨j + 1, by simp only [List.length_cons]; omega, ?_, ?_, ?_⟩
      · simp only [selectLines, hfit, if_false, h2, List.take_succ_cons]
        simp
      · simp only [List.take_succ_cons, heightSum_cons]
        omega
      · intro hj
        simp only [List.length_cons] at hj
        have := h4 (by omega)
        simp only [List.take_succ_cons, heightSum_cons] at this ⊢
        omega

theorem lines_to_draw_spec (term : Terminal) :
    ∃ k, k ≤ term.buffer.length ∧ lines_to_draw term = term.buffer.drop k ∧
      heightSum (term.buffer.drop k) ≤ term.height ∧
      ∀ i, i < k → term.height < heightSum (term.buffer.drop i) := by
  obtain ⟨j, h1, h2, h3, h4⟩ :=
    selectLines_spec term.height term.buffer.reverse 0 [] (Nat.zero_le _)
  rw [List.length_reverse] at h1 h4
  refine ⟨term.buffer.length - j, Nat.sub_le _ _, ?_, ?_, ?_⟩
  · rw [lines_to_draw, h2, List.nil_append, List.take_reverse, List.reverse_reverse]
  · rw [List.take_reverse, heightSum_reverse] at h3
    omega
  · intro i hi
    have hj : j < term.buffer.length := by omega
    have h5 := h4 hj
    rw [List.take_reverse, heightSum_reverse] at h5
    have h6 := heightSum_drop_mono term.buffer i (term.buffer.length - (j + 1)) (by omega)
    omega

theorem drawnTexts_renderLines (x : Nat) (lines : List TerminalLine) (y_pos : Nat) :
    drawnTexts (renderLines x lines y_pos) = lines.map (fun line => line.text) := by
  induction lines generalizing y_pos with
  | nil => rfl
  | cons line rest ih => simp [renderLines, drawnTexts, ih]

theorem drawnTexts_append (xs ys : List DrawCmd) :
    drawnTexts (xs ++ ys) = drawnTexts xs ++ drawnTexts ys := by
  induction xs with
  | nil => rfl
  | cons cmd rest ih => cases cmd <;> simp [drawnTexts, ih]

theorem drawnTexts_single_pass (term : Terminal) :
    drawnTexts (Terminal_draw term 0).2 = drawnTexts (drawPass term) := by
  simp [Terminal_draw, pageLoop, drawnTexts, drawnTexts_append]

theorem drawnTexts_drawPass (term : Terminal) :
    drawnTexts (drawPass term) = (lines_to_draw term).map (fun line => line.text) := by
  simp [drawPass, drawnTexts, drawnTexts_renderLines]

/-! ## Lemmas on call sequences -/

theorem lastN_length (k : Nat) (lines : List TerminalLine) :
    (lastN k lines).length = min k lines.length := by
  rw [lastN, List.length_drop]
  omega

theorem Terminal_print_length_le (term term1 : Terminal) (msg : List Char)
    (h : Terminal_print term msg = some term1) :
    term1.buffer.length ≤ term1.max_lines ∧ term1.max_lines = term.max_lines := by
  rw [Terminal_print_eq] at h
  cases h
  exact ⟨evict_length_le _ _, rfl⟩

theorem printAll_spec (term : Terminal) (msgs : List (List Char)) :
    ∃ states, printAll term msgs = some states ∧ states.length = msgs.length ∧
      ∀ t ∈ states, t.buffer.length ≤ t.max_lines := by
  induction msgs generalizing term with
  | nil => exact ⟨[], rfl, rfl, by simp⟩
  | cons msg msgs ih =>
    have hp := Terminal_print_eq term msg
    generalize hterm1 : ({ term with
      buffer := evict term.max_lines
        (term.buffer ++ tagged term.font_size (segments (std_string msg))) } : Terminal) =
      term1 at hp
    obtain ⟨states, h1, h2, h3⟩ := ih term1
    refine ⟨term1 :: states, ?_, ?_, ?_⟩
    · simp only [printAll, hp, h1, Option.map_some']
    · simp [h2]
    · intro t ht
      rcases List.mem_cons.mp ht with rfl | hm
      · exact (Terminal_print_length_le term t msg hp).1
      · exact h3 t hm

theorem Terminal_init_eq (term : Terminal) (u8g2_ref x y width height font_height : Nat)
    (hpos : 0 < font_height) :
    Terminal_init term u8g2_ref x y width height font_height = some { term with
      u8g2 := some u8g2_ref
      x := x
      y := y
      width := width
      height := height
      font_height := font_height
      max_lines := height / font_height
      buffer := [] } := by
  have hne : font_height ≠ 0 := by omega
  simp only [Terminal_init, hne, if_false]

theorem Terminal_init_bound (term : Terminal) (u8g2_ref x y width height font_height : Nat)
    (hpos : 0 < font_height) :
    ∃ term1, Terminal_init term u8g2_ref x y width height font_height = some term1 ∧
      term1.buffer.length ≤ term1.max_lines :=
  ⟨_, Terminal_init_eq term u8g2_ref x y width height font_height hpos, Nat.zero_le _⟩

theorem step_bound (term : Terminal) (call : Call) (hvalid : call.valid = true) :
    ∃ term1, step term call = some term1 ∧
      (call.isSetFontSize = false → term1.buffer.length ≤ term1.max_lines) := by
  cases call with
  | init u8g2_ref x y width height font_height =>
    simp only [Call.valid, decide_eq_true_eq] at hvalid
    obtain ⟨term1, h1, h2⟩ := Terminal_init_bound term u8g2_ref x y width height font_height hvalid
    exact ⟨term1, h1, fun _ => h2⟩
  | deinit => exact ⟨_, rfl, fun _ => Nat.le_refl _⟩
  | clear => exact ⟨_, rfl, fun _ => Nat.zero_le _⟩
  | setFontSize size => exact ⟨_, rfl, fun h => by simp [Call.isSetFontSize] at h⟩
  | print msg =>
    exact ⟨_, Terminal_print_eq term msg, fun _ => evict_length_le _ _⟩

theorem run_some (term : Terminal) (calls : List Call)
    (hvalid : ∀ call ∈ calls, call.valid = true) : ∃ term1, run term calls = some term1 := by
  induction calls generalizing term with
  | nil => exact ⟨term, rfl⟩
  | cons call calls ih =>
    obtain ⟨term1, h1, _⟩ := step_bound term call (hvalid call (List.mem_cons_self _ _))
    obtain ⟨term2, h2⟩ := ih term1 (fun c hc => hvalid c (List.mem_cons_of_mem _ hc))
    exact ⟨term2, by rw [run, h1]; exact h2⟩

theorem run_concat (term : Terminal) (calls : List Call) (call : Call) :
    run term (calls ++ [call]) = (run term calls).bind (fun term1 => step term1 call) := by
  induction calls generalizing term with
  | nil =>
    simp only [List.nil_append, run, Option.some_bind]
    cases step term call <;> rfl
  | cons c calls ih =>
    simp only [List.cons_append, run]
    cases step term c with
    | none => rfl
    | some term1 => exact ih term1

theorem run_bound (term : Terminal) (calls : List Call)
    (hterm : term.buffer.length ≤ term.max_lines)
    (hvalid : ∀ call ∈ calls, call.valid = true) :
    ∃ term1, run term calls = some term1 ∧
      ((∀ call, calls.getLast? = some call → call.isSetFontSize = false) →
        term1.buffer.length ≤ term1.max_lines) := by
  rcases List.eq_nil_or_concat calls with rfl | ⟨front, call, rfl⟩
  · exact ⟨term, rfl, fun _ => hterm⟩
  · rw [List.concat_eq_append] at hvalid ⊢
    obtain ⟨term1, h1⟩ := run_some term front
      (fun c hc => hvalid c (List.mem_append_left _ hc))
    obtain ⟨term2, h2, h3⟩ := step_bound term1 call
      (hvalid call (List.mem_append_right _ (List.mem_singleton_self _)))
    refine ⟨term2, by rw [run_concat, h1]; exact h2, ?_⟩
    intro hlast
    exact h3 (hlast call (List.getLast?_concat _))

theorem clampSize_eq (s : Nat) : clampSize s = min (max s 1) 4 := by
  simp only [clampSize]
  split <;> split <;> omega

theorem pageLoop_eq (term : Terminal) (more : Nat) :
    pageLoop term more =
      (List.replicate (more + 1) (drawPass term ++ [DrawCmd.nextPage])).flatten := by
  induction more with
  | zero => simp [pageLoop]
  | succ more ih =>
    rw [pageLoop, ih, List.replicate_succ (drawPass term ++ [DrawCmd.nextPage]) (more + 1)]
    simp

theorem usesFallback_of_mem (size : Nat) (h : size ∈ [1, 2, 3, 4]) :
    usesFallback size = false := by
  simp only [List.mem_cons, List.mem_singleton, List.mem_nil_iff, or_false] at h
  rcases h with rfl | rfl | rfl | rfl <;> rfl

theorem clampSize_mem (s : Nat) : clampSize s ∈ [1, 2, 3, 4] := by
  rw [clampSize_eq]
  simp only [List.mem_cons, List.mem_singleton, List.mem_nil_iff, or_false]
  omega

theorem step_sizesInRange (term term1 : Terminal) (call : Call) (h : sizesInRange term)
    (hstep : step term call = some term1) : sizesInRange term1 := by
  cases call with
  | init u8g2_ref x y width height font_height =>
    simp only [step, Terminal_init] at hstep
    split at hstep
    · cases hstep
    · cases hstep
      exact ⟨h.1, by simp⟩
  | deinit =>
    cases hstep
    exact ⟨by simp [Terminal_deinit], by simp [Terminal_deinit]⟩
  | clear =>
    cases hstep
    exact ⟨h.1, by simp [Terminal_clear]⟩
  | setFontSize size =>
    cases hstep
    exact ⟨clampSize_mem size, h.2⟩
  | print msg =>
    simp only [step, Terminal_print_eq] at hstep
    cases hstep
    refine ⟨h.1, ?_⟩
    intro line hline
    simp only [evict_eq_drop] at hline
    rcases List.mem_append.mp (List.mem_of_mem_drop hline) with hold | hnew
    · exact h.2 line hold
    · simp only [tagged, List.mem_map] at hnew
      obtain ⟨seg, _, rfl⟩ := hnew
      exact h.1

theorem run_sizesInRange (term term1 : Terminal) (calls : List Call) (h : sizesInRange term)
    (hrun : run term calls = some term1) : sizesInRange term1 := by
  induction calls generalizing term with
  | nil =>
    cases hrun
    exact h
  | cons call calls ih =>
    simp only [run] at hrun
    cases hstep : step term call with
    | none => simp [hstep] at hrun
    | some term2 =>
      rw [hstep] at hrun
      exact ih term2 (step_sizesInRange term term2 call h hstep) hrun

/-! ## Lemmas on the drawing cursor -/

theorem render_line_height_eq (size : Nat) :
    render_line_height size = select_line_height size := rfl

theorem select_line_height_pos (size : Nat) : 0 < select_line_height size := by
  unfold select_line_height
  split <;> omega

theorem heightSum_take_le (lines : List TerminalLine) (n : Nat) :
    heightSum (lines.take n) ≤ heightSum lines := by
  have h := heightSum_append (lines.take n) (lines.drop n)
  rw [List.take_append_drop] at h
  omega

theorem renderLines_length (x : Nat) (lines : List TerminalLine) (y_pos : Nat) :
    (renderLines x lines y_pos).length = 2 * lines.length := by
  induction lines generalizing y_pos with
  | nil => rfl
  | cons line rest ih =>
    simp only [renderLines, List.length_cons, ih]
    omega

theorem renderLines_getElem (x : Nat) (lines : List TerminalLine) (y_pos i : Nat)
    (line : TerminalLine) (hline : lines[i]? = some line) :
    (renderLines x lines y_pos)[2 * i]? =
        some (DrawCmd.setFont (getFontBySize line.font_size)) ∧
      (renderLines x lines y_pos)[2 * i + 1]? =
        some (DrawCmd.drawStr (x + 2) ((y_pos + heightSum (lines.take (i + 1))) % 256)
          line.text) := by
  induction lines generalizing y_pos i with
  | nil => simp at hline
  | cons first rest ih =>
    cases i with
    | zero =>
      simp only [List.getElem?_cons_zero, Option.some.injEq] at hline
      subst hline
      simp [renderLines, render_line_height_eq, heightSum_cons, heightSum_nil]
    | succ i =>
      simp only [List.getElem?_cons_succ] at hline
      obtain ⟨h1, h2⟩ := ih ((y_pos + render_line_height first.font_size) % 256) i hline
      have e1 : 2 * (i + 1) = 2 * i + 1 + 1 := by omega
      have e3 : ((y_pos + render_line_height first.font_size) % 256 +
          heightSum (rest.take (i + 1))) % 256 =
          (y_pos + heightSum ((first :: rest).take (i + 1 + 1))) % 256 := by
        rw [List.take_succ_cons, heightSum_cons, render_line_height_eq]
        omega
      rw [e1]
      simp only [renderLines, List.getElem?_cons_succ]
      rw [h1, h2, e3]
      exact ⟨rfl, rfl⟩

theorem drawnYs_renderLines (x : Nat) (lines : List TerminalLine) (y_pos : Nat)
    (h : y_pos + heightSum lines ≤ 255) :
    drawnYs (renderLines x lines y_pos) = baselines y_pos lines := by
  induction lines generalizing y_pos with
  | nil => rfl
  | cons line rest ih =>
    rw [heightSum_cons] at h
    have e : (y_pos + render_line_height line.font_size) % 256 =
        y_pos + select_line_height line.font_size := by
      rw [render_line_height_eq]
      exact Nat.mod_eq_of_lt (by omega)
    simp only [renderLines, drawnYs, baselines, e]
    rw [ih _ (by omega)]

theorem baselines_length (y : Nat) (lines : List TerminalLine) :
    (baselines y lines).length = lines.length := by
  induction lines generalizing y with
  | nil => rfl
  | cons line rest ih => simp [baselines, ih]

theorem baselines_getElem (y : Nat) (lines : List TerminalLine) (i : Nat)
    (hi : i < lines.length) :
    (baselines y lines)[i]? = some (y + heightSum (lines.take (i + 1))) := by
  induction lines generalizing y i with
  | nil => simp at hi
  | cons line rest ih =>
    cases i with
    | zero => simp [baselines, heightSum_cons, heightSum_nil]
    | succ i =>
      simp only [List.length_cons] at hi
      simp only [baselines, List.getElem?_cons_succ, List.take_succ_cons, heightSum_cons]
      rw [ih _ i (by omega)]
      simp only [List.take_succ_cons, Option.some.injEq]
      omega

theorem baselines_bounds (y : Nat) (lines : List TerminalLine) :
    ∀ v ∈ baselines y lines, y < v ∧ v ≤ y + heightSum lines := by
  induction lines generalizing y with
  | nil => simp [baselines]
  | cons line rest ih =>
    intro v hv
    have hpos := select_line_height_pos line.font_size
    rw [heightSum_cons]
    rcases List.mem_cons.mp hv with rfl | hm
    · omega
    · have := ih _ v hm
      omega

theorem baselines_increasing (y : Nat) (lines : List TerminalLine) :
    (baselines y lines).Pairwise (fun a b => a < b) := by
  induction lines generalizing y with
  | nil => simp [baselines]
  | cons line rest ih =>
    simp only [baselines, List.pairwise_cons]
    exact ⟨fun v hv => (baselines_bounds _ rest v hv).1, ih _⟩

theorem baselines_getLast (y : Nat) (lines : List TerminalLine) (hne : lines ≠ []) :
    (baselines y lines).getLast? = some (y + heightSum lines) := by
  induction lines generalizing y with
  | nil => exact absurd rfl hne
  | cons line rest ih =>
    cases rest with
    | nil => simp [baselines, heightSum_cons, heightSum_nil]
    | cons second more =>
      have h := ih (y + select_line_height line.font_size) (by simp)
      rw [heightSum_cons line]
      simp only [baselines, List.getLast?_cons_cons] at h ⊢
      rw [h]
      simp only [Option.some.injEq]
      omega

theorem lines_to_draw_fit (term : Terminal) : heightSum (lines_to_draw term) ≤ term.height := by
  obtain ⟨k, _, h2, h3, _⟩ := lines_to_draw_spec term
  rw [h2]
  exact h3

/-! ## Lemmas on messages and uniform buffers -/

theorem std_string_eq_self (msg : List Char) (hnul : ∀ c ∈ msg, c ≠ NUL) :
    std_string msg = msg := by
  rw [std_string, List.takeWhile_eq_self_iff]
  intro c hc
  simpa using hnul c hc

theorem tagged_texts (font_size : Nat) (segs : List (List Char)) :
    (tagged font_size segs).map (fun line => line.text) = segs := by
  induction segs with
  | nil => rfl
  | cons seg more ih =>
    simp only [tagged, List.map_cons, List.cons.injEq, true_and] at ih ⊢
    exact ih

theorem tagged_sizes (font_size : Nat) (segs : List (List Char)) :
    ∀ line ∈ tagged font_size segs, line.font_size = font_size := by
  intro line hline
  simp only [tagged, List.mem_map] at hline
  obtain ⟨seg, _, rfl⟩ := hline
  rfl

theorem select_line_height_eq_table (size : Nat) :
    select_line_height size = setFontSize_height size := rfl

theorem heightSum_uniform (lines : List TerminalLine) (size : Nat)
    (h : ∀ line ∈ lines, line.font_size = size) :
    heightSum lines = lines.length * select_line_height size := by
  induction lines with
  | nil => simp [heightSum_nil]
  | cons line rest ih =>
    rw [heightSum_cons, ih (fun l hl => h l (List.mem_cons_of_mem _ hl)),
      h line (List.mem_cons_self _ _), List.length_cons, Nat.succ_mul]
    omega

theorem lines_to_draw_all (term : Terminal) (hfit : heightSum term.buffer ≤ term.height) :
    lines_to_draw term = term.buffer := by
  obtain ⟨k, _, h2, _, h4⟩ := lines_to_draw_spec term
  cases k with
  | zero => rw [h2, List.drop_zero]
  | succ k =>
    have := h4 0 (Nat.succ_pos k)
    rw [List.drop_zero] at this
    omega

/-! ## Lemmas on the capacity of states built through the interface -/

theorem Terminal_init_capacity (term term1 : Terminal)
    (u8g2_ref x y width height font_height : Nat)
    (hinit : Terminal_init term u8g2_ref x y width height font_height = some term1) :
    term1.max_lines * term1.font_height ≤ term1.height := by
  simp only [Terminal_init] at hinit
  split at hinit
  · cases hinit
  · cases hinit
    exact Nat.div_mul_le_self _ _

theorem step_capacity (term term1 : Terminal) (call : Call)
    (h : term.max_lines * term.font_height ≤ term.height)
    (hstep : step term call = some term1) :
    term1.max_lines * term1.font_height ≤ term1.height := by
  cases call with
  | init u8g2_ref x y width height font_height =>
    exact Terminal_init_capacity term term1 u8g2_ref x y width height font_height hstep
  | deinit =>
    cases hstep
    simp [Terminal_deinit]
  | clear =>
    cases hstep
    exact h
  | setFontSize size =>
    cases hstep
    exact Nat.div_mul_le_self _ _
  | print msg =>
    simp only [step, Terminal_print_eq] at hstep
    cases hstep
    exact h

theorem run_capacity (term term1 : Terminal) (calls : List Call)
    (h : term.max_lines * term.font_height ≤ term.height)
    (hrun : run term calls = some term1) :
    term1.max_lines * term1.font_height ≤ term1.height := by
  induction calls generalizing term with
  | nil =>
    cases hrun
    exact h
  | cons call calls ih =>
    simp only [run] at hrun
    cases hstep : step term call with
    | none => simp [hstep] at hrun
    | some term2 =>
      rw [hstep] at hrun
      exact ih term2 (step_capacity term term2 call h hstep) hrun

theorem uniform_buffer_drawn (term : Terminal)
    (hcap : term.max_lines * term.font_height ≤ term.height)
    (hheight : term.font_height = setFontSize_height term.font_size)
    (hsizes : ∀ line ∈ term.buffer, line.font_size = term.font_size)
    (hlen : term.buffer.length ≤ term.max_lines) :
    lines_to_draw term = term.buffer := by
  have hsum := heightSum_uniform term.buffer term.font_size hsizes
  rw [select_line_height_eq_table, ← hheight] at hsum
  apply lines_to_draw_all
  rw [hsum]
  exact Nat.le_trans (Nat.mul_le_mul_right _ hlen) hcap

/-! ## The claims -/

/-- C1: after `Terminal_print` the buffer is the last `min(max_lines, n)`
entries of `L`, the old buffer followed by the message's line-feed-separated
segments tagged with the current `font_size`, where `n` is the length of `L`;
nothing else of the terminal changes. -/
theorem print_keeps_newest (term : Terminal) (msg : List Char) :
    Terminal_print term msg = some { term with
      buffer := (term.buffer ++ tagged term.font_size (segments (std_string msg))).drop
        ((term.buffer ++ tagged term.font_size (segments (std_string msg))).length -
          min term.max_lines
            (term.buffer ++ tagged term.font_size (segments (std_string msg))).length) } := by
  rw [Terminal_print_eq, evict_eq_lastN, lastN]

/-- C2: from every terminal state and for every sequence of messages, every
`Terminal_print` call of the sequence returns, and the state it leaves has a
buffer of at most `max_lines` entries. -/
theorem print_bounds_buffer (term : Terminal) (msgs : List (List Char)) :
    ∃ states, printAll term msgs = some states ∧ states.length = msgs.length ∧
      ∀ t ∈ states, t.buffer.length ≤ t.max_lines :=
  printAll_spec term msgs

/-- C3: the texts one pass of `Terminal_draw` passes to `drawStr` (the pass
alone, and the whole call when the page loop makes a single pass) are, in
buffer order, those of the longest suffix of the buffer whose summed per-line
heights do not exceed `height`: the suffix fits (a total equal to `height`
counts as fitting) and every longer suffix exceeds `height`.  With
`height = 30` and lines of sizes 1, 2, 4 (heights 12, 13, 20) only the newest
line is drawn. -/
theorem draw_selects_longest_fitting_suffix :
    (∀ term : Terminal, ∃ k, k ≤ term.buffer.length ∧
      drawnTexts (drawPass term) = (term.buffer.drop k).map (fun line => line.text) ∧
      drawnTexts (Terminal_draw term 0).2 = (term.buffer.drop k).map (fun line => line.text) ∧
      heightSum (term.buffer.drop k) ≤ term.height ∧
      ∀ i, i < k → term.height < heightSum (term.buffer.drop i)) ∧
    (∀ (u8g2 : Option Nat) (x y width font_height max_lines font_size : Nat)
        (a b c : List Char),
      heightSum [⟨a, 1⟩] = 12 ∧ heightSum [⟨b, 2⟩] = 13 ∧ heightSum [⟨c, 4⟩] = 20 ∧
      drawnTexts (drawPass ⟨u8g2, x, y, width, 30, font_height, max_lines, font_size,
        [⟨a, 1⟩, ⟨b, 2⟩, ⟨c, 4⟩]⟩) = [c]) := by
  constructor
  · intro term
    obtain ⟨k, h1, h2, h3, h4⟩ := lines_to_draw_spec term
    exact ⟨k, h1, by rw [drawnTexts_drawPass, h2],
      by rw [drawnTexts_single_pass, drawnTexts_drawPass, h2], h3, h4⟩
  · intro u8g2 x y width font_height max_lines font_size a b c
    refine ⟨rfl, rfl, rfl, ?_⟩
    simp [drawnTexts_drawPass, lines_to_draw, selectLines, select_line_height]

/-- C4: a message (the C string `msg` holds, `std_string msg`) with exactly
`k` line-feeds, printed on an empty buffer with `max_lines ≥ k + 1`, leaves exactly `k + 1` entries; their texts contain no
line-feed and, joined by single line-feeds, give back the message (so they are
its maximal line-feed-free pieces, left to right), and each carries the
`font_size` of the terminal at call time. -/
theorem print_splits_on_line_feeds (term : Terminal) (msg : List Char) (k : Nat)
    (hbuf : term.buffer = []) (hk : (std_string msg).count LF = k)
    (hmax : k + 1 ≤ term.max_lines) :
    ∃ segs : List (List Char),
      Terminal_print term msg = some { term with buffer := tagged term.font_size segs } ∧
      segs = segments (std_string msg) ∧
      segs.length = k + 1 ∧ (∀ seg ∈ segs, LF ∉ seg) ∧
      List.intercalate [LF] segs = std_string msg := by
  refine ⟨segments (std_string msg), ?_, rfl, by rw [segments_length, hk],
    segments_no_LF _, segments_join _⟩
  rw [Terminal_print_eq, hbuf, List.nil_append, evict_eq_drop]
  have hlen : (tagged term.font_size (segments (std_string msg))).length = k + 1 := by
    simp [tagged, segments_length, hk]
  have e : (tagged term.font_size (segments (std_string msg))).length - term.max_lines = 0 := by
    omega
  rw [e, List.drop_zero]

/-- C4, witness: `print("a\nb\nc")` on an empty buffer with `max_lines = 3`
gives the three entries "a", "b", "c", tagged with the current size 2. -/
theorem print_splits_on_line_feeds_witness :
    (⟨some 0, 0, 0, 128, 36, 12, 3, 2, []⟩ : Terminal).buffer = [] ∧
    (std_string "a\nb\nc".toList).count LF = 2 ∧
    2 + 1 ≤ (⟨some 0, 0, 0, 128, 36, 12, 3, 2, []⟩ : Terminal).max_lines ∧
    Terminal_print ⟨some 0, 0, 0, 128, 36, 12, 3, 2, []⟩ "a\nb\nc".toList =
      some ⟨some 0, 0, 0, 128, 36, 12, 3, 2,
        [⟨"a".toList, 2⟩, ⟨"b".toList, 2⟩, ⟨"c".toList, 2⟩]⟩ := by
  refine ⟨rfl, by decide, by decide, ?_⟩
  obtain ⟨segs, h1, h2, _⟩ := print_splits_on_line_feeds
    ⟨some 0, 0, 0, 128, 36, 12, 3, 2, []⟩ "a\nb\nc".toList 2 rfl (by decide) (by decide)
  rw [h1, h2]
  decide

/-- C5: when the message ends in a line-feed, the entries `Terminal_print`
appends (the new buffer before eviction is the old one followed by them) end
with the empty string; and `print("a\n")` on an empty buffer with
`max_lines ≥ 2` leaves exactly "a" followed by "". -/
theorem print_trailing_line_feed :
    (∀ (term : Terminal) (msg : List Char), (std_string msg).getLast? = some LF →
      ∃ appended : List TerminalLine,
        appendLines (std_string msg) term.font_size ((std_string msg).length + 1) 0
          term.buffer = some (term.buffer ++ appended) ∧
        Terminal_print term msg =
          some { term with buffer := evict term.max_lines (term.buffer ++ appended) } ∧
        appended.getLast? = some ⟨[], term.font_size⟩) ∧
    (∀ term : Terminal, term.buffer = [] → 2 ≤ term.max_lines →
      Terminal_print term "a\n".toList =
        some { term with buffer := [⟨"a".toList, term.font_size⟩, ⟨[], term.font_size⟩] }) := by
  constructor
  · intro term msg hlast
    obtain ⟨front, hfront⟩ := List.getLast?_eq_some_iff.mp hlast
    refine ⟨tagged term.font_size (segments (std_string msg)),
      appendLines_eq _ _ _ 0 _ (Nat.zero_le _) (by omega), Terminal_print_eq term msg, ?_⟩
    rw [hfront, segments_append_LF]
    simp [tagged]
  · intro term hbuf hmax
    rw [Terminal_print_eq, hbuf, List.nil_append, evict_eq_drop]
    have hseg : segments (std_string "a\n".toList) = ["a".toList, []] := by decide
    rw [hseg]
    have e : (tagged term.font_size ["a".toList, []]).length - term.max_lines = 0 := by
      simp only [tagged, List.map_cons, List.map_nil, List.length_cons, List.length_nil]
      omega
    rw [e, List.drop_zero]
    rfl

/-- C5, witness: the message "a\n" printed on an empty buffer of capacity 2
appends "a" and "", and both stay. -/
theorem print_trailing_line_feed_witness :
    (std_string "a\n".toList).getLast? = some LF ∧
    (⟨some 0, 0, 0, 128, 24, 12, 2, 1, []⟩ : Terminal).buffer = [] ∧
    2 ≤ (⟨some 0, 0, 0, 128, 24, 12, 2, 1, []⟩ : Terminal).max_lines ∧
    (∃ appended : List TerminalLine,
      appendLines (std_string "a\n".toList) 1 ((std_string "a\n".toList).length + 1) 0 [] =
        some ([] ++ appended) ∧
      Terminal_print ⟨some 0, 0, 0, 128, 24, 12, 2, 1, []⟩ "a\n".toList =
        some ⟨some 0, 0, 0, 128, 24, 12, 2, 1, evict 2 ([] ++ appended)⟩ ∧
      appended.getLast? = some ⟨[], 1⟩) ∧
    Terminal_print ⟨some 0, 0, 0, 128, 24, 12, 2, 1, []⟩ "a\n".toList =
      some ⟨some 0, 0, 0, 128, 24, 12, 2, 1, [⟨"a".toList, 1⟩, ⟨[], 1⟩]⟩ :=
  ⟨by decide, rfl, by decide,
    print_trailing_line_feed.1 ⟨some 0, 0, 0, 128, 24, 12, 2, 1, []⟩ "a\n".toList (by decide),
    print_trailing_line_feed.2 ⟨some 0, 0, 0, 128, 24, 12, 2, 1, []⟩ rfl (by decide)⟩

/-- C6: `Terminal_setFontSize(s)` gives the same state as
`Terminal_setFontSize(min(max(s, 1), 4))`, the resulting `font_size` is one of
1, 2, 3, 4, size 0 behaves as size 1 and size 9 as size 4. -/
theorem setFontSize_clamps (term : Terminal) (s : Nat) :
    Terminal_setFontSize term s = Terminal_setFontSize term (min (max s 1) 4) ∧
    (Terminal_setFontSize term s).font_size = min (max s 1) 4 ∧
    (Terminal_setFontSize term s).font_size ∈ [1, 2, 3, 4] ∧
    Terminal_setFontSize term 0 = Terminal_setFontSize term 1 ∧
    Terminal_setFontSize term 9 = Terminal_setFontSize term 4 := by
  have hc : clampSize s = min (max s 1) 4 := by
    simp only [clampSize]
    split <;> split <;> omega
  have hcc : clampSize (min (max s 1) 4) = min (max s 1) 4 := by
    simp only [clampSize]
    split <;> split <;> omega
  refine ⟨by simp only [Terminal_setFontSize, hc, hcc], by simp only [Terminal_setFontSize, hc],
    ?_, rfl, rfl⟩
  simp only [Terminal_setFontSize, hc, List.mem_cons, List.mem_singleton]
  omega

/-- C7: after `Terminal_setFontSize(s)`, `font_height` is the table value of
the clamped size (1→12, 2→13, 3→15, 4→20) and `max_lines` is the integer
quotient `height / font_height`; after size 2, `max_lines = height / 13`. -/
theorem setFontSize_height_and_capacity (term : Terminal) (s : Nat) :
    (Terminal_setFontSize term s).font_height =
      (if min (max s 1) 4 = 1 then 12 else if min (max s 1) 4 = 2 then 13
        else if min (max s 1) 4 = 3 then 15 else 20) ∧
    (Terminal_setFontSize term s).max_lines =
      term.height / (Terminal_setFontSize term s).font_height ∧
    (Terminal_setFontSize term s).height = term.height ∧
    (Terminal_setFontSize term 2).max_lines = term.height / 13 := by
  have hc : clampSize s = min (max s 1) 4 := by
    simp only [clampSize]
    split <;> split <;> omega
  refine ⟨?_, rfl, rfl, rfl⟩
  simp only [Terminal_setFontSize, hc]
  have h4 : min (max s 1) 4 = 1 ∨ min (max s 1) 4 = 2 ∨ min (max s 1) 4 = 3 ∨
      min (max s 1) 4 = 4 := by omega
  rcases h4 with h | h | h | h <;> rw [h] <;> rfl

/-- C8, as stated, fails: after `Terminal_init` with `height = 24` and
`font_height = 12` (capacity 2), printing "a\nb" and then calling
`Terminal_setFontSize(4)` leaves two buffered lines with `max_lines = 1`. -/
theorem buffer_bound_fails_after_setFontSize :
    ¬ (∀ (term0 term1 term : Terminal) (u8g2_ref x y width height font_height : Nat)
        (calls : List Call), 0 < font_height →
        Terminal_init term0 u8g2_ref x y width height font_height = some term1 →
        run term1 calls = some term → term.buffer.length ≤ term.max_lines) := by
  intro h
  have h1 := h ⟨none, 0, 0, 0, 0, 0, 0, 1, []⟩ ⟨some 0, 0, 0, 128, 24, 12, 2, 1, []⟩
    ⟨some 0, 0, 0, 128, 24, 20, 1, 4, [⟨"a".toList, 1⟩, ⟨"b".toList, 1⟩]⟩
    0 0 0 128 24 12 [Call.print "a\nb".toList, Call.setFontSize 4]
    (by decide) (by decide) (by decide)
  exact absurd h1 (by decide)

/-- C8, amended: from a `Terminal_init` call with positive `font_height`, every
finite sequence of calls (each `Terminal_init` among them with positive
`font_height`) returns a state, and unless the last call of the sequence is
`Terminal_setFontSize` the buffer length is at most `max_lines`. -/
theorem buffer_bound_unless_setFontSize (term0 : Terminal)
    (u8g2_ref x y width height font_height : Nat) (calls : List Call)
    (hpos : 0 < font_height) (hvalid : ∀ call ∈ calls, call.valid = true) :
    ∃ term1 term, Terminal_init term0 u8g2_ref x y width height font_height = some term1 ∧
      run term1 calls = some term ∧
      ((∀ call, calls.getLast? = some call → call.isSetFontSize = false) →
        term.buffer.length ≤ term.max_lines) := by
  obtain ⟨term1, h1, h2⟩ := Terminal_init_bound term0 u8g2_ref x y width height font_height hpos
  obtain ⟨term, h3, h4⟩ := run_bound term1 calls h2 hvalid
  exact ⟨term1, term, h1, h3, h4⟩

/-- C8, witness: initialise with height 24 and line height 12, then clear,
print two lines and print a third. -/
theorem buffer_bound_unless_setFontSize_witness :
    0 < 12 ∧
    (∀ call ∈ [Call.clear, Call.print "a\nb".toList, Call.print "c".toList],
      call.valid = true) ∧
    ∃ term1 term, Terminal_init ⟨none, 0, 0, 0, 0, 0, 0, 1, []⟩ 0 0 0 128 24 12 = some term1 ∧
      run term1 [Call.clear, Call.print "a\nb".toList, Call.print "c".toList] = some term ∧
      ((∀ call, [Call.clear, Call.print "a\nb".toList, Call.print "c".toList].getLast? =
          some call → call.isSetFontSize = false) →
        term.buffer.length ≤ term.max_lines) :=
  ⟨by decide, by decide,
    buffer_bound_unless_setFontSize ⟨none, 0, 0, 0, 0, 0, 0, 1, []⟩ 0 0 0 128 24 12
      [Call.clear, Call.print "a\nb".toList, Call.print "c".toList] (by decide) (by decide)⟩

/-- C9: with `font_height > 0`, `Terminal_init` returns a state whose `x`, `y`,
`width`, `height` and `font_height` are the arguments, whose `max_lines` is
the integer quotient `height / font_height`, whose buffer is empty and whose
display reference is the one given. -/
theorem init_sets_geometry (term : Terminal) (u8g2_ref x y width height font_height : Nat)
    (hpos : 0 < font_height) :
    ∃ term1, Terminal_init term u8g2_ref x y width height font_height = some term1 ∧
      term1.x = x ∧ term1.y = y ∧ term1.width = width ∧ term1.height = height ∧
      term1.font_height = font_height ∧ term1.max_lines = height / font_height ∧
      term1.buffer = [] ∧ term1.u8g2 = some u8g2_ref := by
  exact ⟨_, Terminal_init_eq term u8g2_ref x y width height font_height hpos,
    rfl, rfl, rfl, rfl, rfl, rfl, rfl, rfl⟩

/-- C9, witness: a 128x64 region at the origin with line height 12 holds 5
lines. -/
theorem init_sets_geometry_witness :
    0 < 12 ∧
    ∃ term1, Terminal_init ⟨none, 3, 4, 5, 6, 7, 8, 2, [⟨"old".toList, 2⟩]⟩ 0 0 0 128 64 12 =
        some term1 ∧
      term1.x = 0 ∧ term1.y = 0 ∧ term1.width = 128 ∧ term1.height = 64 ∧
      term1.font_height = 12 ∧ term1.max_lines = 64 / 12 ∧
      term1.buffer = [] ∧ term1.u8g2 = some 0 :=
  ⟨by decide,
    init_sets_geometry ⟨none, 3, 4, 5, 6, 7, 8, 2, [⟨"old".toList, 2⟩]⟩ 0 0 0 128 64 12
      (by decide)⟩

/-- C10: `Terminal_deinit` yields one fixed state whatever the input: display
reference unset, `x = y = width = height = 0`, `font_height = 0`,
`max_lines = 0`, `font_size = 1`, buffer empty; applying it twice gives the
same state as applying it once. -/
theorem deinit_resets (term : Terminal) :
    Terminal_deinit term = ⟨none, 0, 0, 0, 0, 0, 0, 1, []⟩ ∧
    Terminal_deinit (Terminal_deinit term) = Terminal_deinit term :=
  ⟨rfl, rfl⟩

/-- C11: `Terminal_clear` leaves the buffer empty and leaves `x`, `y`,
`width`, `height`, `font_height`, `max_lines`, `font_size` and the display
reference unchanged. -/
theorem clear_empties_buffer_only (term : Terminal) :
    (Terminal_clear term).buffer = [] ∧
    (Terminal_clear term).x = term.x ∧ (Terminal_clear term).y = term.y ∧
    (Terminal_clear term).width = term.width ∧ (Terminal_clear term).height = term.height ∧
    (Terminal_clear term).font_height = term.font_height ∧
    (Terminal_clear term).max_lines = term.max_lines ∧
    (Terminal_clear term).font_size = term.font_size ∧
    (Terminal_clear term).u8g2 = term.u8g2 :=
  ⟨rfl, rfl, rfl, rfl, rfl, rfl, rfl, rfl, rfl⟩

/-- C12: `Terminal_setFontSize` leaves the buffer and `x`, `y`, `width`,
`height` unchanged; a `Terminal_print` that follows returns, and its buffer is
what eviction leaves of the old buffer followed by the new entries: the
surviving old entries are a suffix of the old buffer as it was (texts and
stored sizes), the surviving new entries carry the clamped size. -/
theorem setFontSize_keeps_buffer (term : Terminal) (size : Nat) (msg : List Char) :
    (Terminal_setFontSize term size).buffer = term.buffer ∧
    (Terminal_setFontSize term size).x = term.x ∧
    (Terminal_setFontSize term size).y = term.y ∧
    (Terminal_setFontSize term size).width = term.width ∧
    (Terminal_setFontSize term size).height = term.height ∧
    ∃ n, Terminal_print (Terminal_setFontSize term size) msg =
        some { Terminal_setFontSize term size with
          buffer := term.buffer.drop n ++
            (tagged (min (max size 1) 4) (segments (std_string msg))).drop
              (n - term.buffer.length) } ∧
      n = (term.buffer ++ tagged (min (max size 1) 4) (segments (std_string msg))).length -
        (Terminal_setFontSize term size).max_lines := by
  refine ⟨rfl, rfl, rfl, rfl, rfl, _, ?_, rfl⟩
  rw [Terminal_print_eq, evict_eq_drop, ← List.drop_append_eq_append_drop]
  simp only [Terminal_setFontSize, clampSize_eq]

/-- C13: `Terminal_draw` leaves the terminal as it was (every field, the
buffer included), and the calls it makes are `setDrawColor(1)`, `firstPage()`
and then, once per pass of the page loop, the same pass followed by
`nextPage()`. -/
theorem draw_keeps_terminal (term : Terminal) (more : Nat) :
    (Terminal_draw term more).1 = term ∧
    (Terminal_draw term more).2 =
      DrawCmd.setDrawColor 1 :: DrawCmd.firstPage ::
        (List.replicate (more + 1) (drawPass term ++ [DrawCmd.nextPage])).flatten := by
  refine ⟨rfl, ?_⟩
  rw [← pageLoop_eq]
  rfl

/-- C14: from a default-constructed terminal (`font_size = 1`, empty buffer,
the other fields whatever they are), every state a finite sequence of
`Terminal_init`, `Terminal_setFontSize`, `Terminal_print`, `Terminal_clear`
and `Terminal_deinit` calls returns has `font_size` in {1, 2, 3, 4} and so has
every buffered line, hence no size lookup on them takes its `default` label;
and the sequence does return a state when each `Terminal_init` in it has a
positive `font_height`. -/
theorem font_size_in_range (term0 : Terminal) (calls : List Call)
    (hsize : term0.font_size = 1) (hbuf : term0.buffer = []) :
    (∀ term, run term0 calls = some term →
      term.font_size ∈ [1, 2, 3, 4] ∧
      (∀ line ∈ term.buffer, line.font_size ∈ [1, 2, 3, 4]) ∧
      usesFallback term.font_size = false ∧
      (∀ line ∈ term.buffer, usesFallback line.font_size = false)) ∧
    ((∀ call ∈ calls, call.valid = true) → ∃ term, run term0 calls = some term) := by
  have h0 : sizesInRange term0 := ⟨by simp [hsize], by simp [hbuf]⟩
  refine ⟨?_, run_some term0 calls⟩
  intro term hrun
  have h := run_sizesInRange term0 term calls h0 hrun
  exact ⟨h.1, h.2, usesFallback_of_mem _ h.1, fun line hl => usesFallback_of_mem _ (h.2 line hl)⟩

/-- C14, witness: a fresh terminal is given size 9, initialised, printed to,
given size 0 and printed to again; it ends with `font_size = 1` and lines of
sizes 4 and 1. -/
theorem font_size_in_range_witness :
    (⟨none, 7, 7, 7, 7, 7, 7, 1, []⟩ : Terminal).font_size = 1 ∧
    (⟨none, 7, 7, 7, 7, 7, 7, 1, []⟩ : Terminal).buffer = [] ∧
    run ⟨none, 7, 7, 7, 7, 7, 7, 1, []⟩
      [Call.setFontSize 9, Call.init 0 0 0 128 64 12, Call.print "a".toList,
        Call.setFontSize 0, Call.print "b".toList] =
      some ⟨some 0, 0, 0, 128, 64, 12, 5, 1, [⟨"a".toList, 4⟩, ⟨"b".toList, 1⟩]⟩ ∧
    (1 ∈ [1, 2, 3, 4] ∧
      (∀ line ∈ [(⟨"a".toList, 4⟩ : TerminalLine), ⟨"b".toList, 1⟩],
        line.font_size ∈ [1, 2, 3, 4]) ∧
      usesFallback 1 = false ∧
      (∀ line ∈ [(⟨"a".toList, 4⟩ : TerminalLine), ⟨"b".toList, 1⟩],
        usesFallback line.font_size = false)) ∧
    (∀ call ∈ [Call.setFontSize 9, Call.init 0 0 0 128 64 12, Call.print "a".toList,
        Call.setFontSize 0, Call.print "b".toList], call.valid = true) ∧
    (∃ term, run ⟨none, 7, 7, 7, 7, 7, 7, 1, []⟩
      [Call.setFontSize 9, Call.init 0 0 0 128 64 12, Call.print "a".toList,
        Call.setFontSize 0, Call.print "b".toList] = some term) :=
  ⟨rfl, rfl, by decide,
    (font_size_in_range ⟨none, 7, 7, 7, 7, 7, 7, 1, []⟩
      [Call.setFontSize 9, Call.init 0 0 0 128 64 12, Call.print "a".toList,
        Call.setFontSize 0, Call.print "b".toList] rfl rfl).1
      ⟨some 0, 0, 0, 128, 64, 12, 5, 1, [⟨"a".toList, 4⟩, ⟨"b".toList, 1⟩]⟩ (by decide),
    by decide,
    (font_size_in_range ⟨none, 7, 7, 7, 7, 7, 7, 1, []⟩
      [Call.setFontSize 9, Call.init 0 0 0 128 64 12, Call.print "a".toList,
        Call.setFontSize 0, Call.print "b".toList] rfl rfl).2 (by decide)⟩

/-- C15, as stated, fails: the drawing cursor is 8 bits wide.  With `y = 250`,
`height = 30` and one buffered line of size 1, the text is drawn at baseline
`(250 + 12) mod 256 = 6`, not at `250 + 12 = 262`. -/
theorem baseline_is_not_plain_sum :
    ¬ (∀ (term : Terminal) (i : Nat) (line : TerminalLine),
        (lines_to_draw term)[i]? = some line →
        (drawPass term)[2 * i + 2]? =
          some (DrawCmd.drawStr (term.x + 2)
            (term.y + heightSum ((lines_to_draw term).take (i + 1))) line.text)) := by
  intro h
  have h1 := h ⟨some 0, 0, 250, 128, 30, 12, 2, 1, [⟨"a".toList, 1⟩]⟩ 0 ⟨"a".toList, 1⟩
    (by decide)
  exact absurd h1 (by decide)

/-- C15, amended: a pass of `Terminal_draw` first draws the frame at
`(x, y, width, height)` and then, for the i-th selected line from the top,
selects the font of that line's stored `font_size` and draws its text at
x-coordinate `x + 2` and at the baseline `y` plus the summed heights of the
selected lines 1 through i, reduced modulo 256 (the cursor is 8 bits wide);
when `y + height ≤ 255` the baseline is that sum itself. -/
theorem draw_pass_layout (term : Terminal) :
    (drawPass term)[0]? = some (DrawCmd.drawFrame term.x term.y term.width term.height) ∧
    (drawPass term).length = 1 + 2 * (lines_to_draw term).length ∧
    (∀ (i : Nat) (line : TerminalLine), (lines_to_draw term)[i]? = some line →
      (drawPass term)[2 * i + 1]? = some (DrawCmd.setFont (getFontBySize line.font_size)) ∧
      (drawPass term)[2 * i + 2]? =
        some (DrawCmd.drawStr (term.x + 2)
          ((term.y + heightSum ((lines_to_draw term).take (i + 1))) % 256) line.text)) ∧
    (term.y + term.height ≤ 255 →
      ∀ (i : Nat) (line : TerminalLine), (lines_to_draw term)[i]? = some line →
        (drawPass term)[2 * i + 2]? =
          some (DrawCmd.drawStr (term.x + 2)
            (term.y + heightSum ((lines_to_draw term).take (i + 1))) line.text)) := by
  have hall : ∀ (i : Nat) (line : TerminalLine), (lines_to_draw term)[i]? = some line →
      (drawPass term)[2 * i + 1]? = some (DrawCmd.setFont (getFontBySize line.font_size)) ∧
      (drawPass term)[2 * i + 2]? =
        some (DrawCmd.drawStr (term.x + 2)
          ((term.y + heightSum ((lines_to_draw term).take (i + 1))) % 256) line.text) := by
    intro i line hline
    obtain ⟨h1, h2⟩ := renderLines_getElem term.x (lines_to_draw term) term.y i line hline
    simp only [drawPass, List.getElem?_cons_succ]
    exact ⟨h1, h2⟩
  refine ⟨by simp [drawPass], ?_, hall, ?_⟩
  · simp only [drawPass, List.length_cons, renderLines_length]
    omega
  · intro hy i line hline
    have h1 := (hall i line hline).2
    have h2 := heightSum_take_le (lines_to_draw term) (i + 1)
    have h3 := lines_to_draw_fit term
    rw [Nat.mod_eq_of_lt (by omega)] at h1
    exact h1

/-- C15, witness: with `y = 250` the second of two lines (sizes 1 and 2) is
drawn in the 7x13 font at baseline `(250 + 25) mod 256`; with `y = 10` it is
drawn at baseline `10 + 25`. -/
theorem draw_pass_layout_witness :
    (lines_to_draw ⟨some 0, 0, 250, 128, 30, 12, 2, 1,
      [⟨"a".toList, 1⟩, ⟨"b".toList, 2⟩]⟩)[1]? = some ⟨"b".toList, 2⟩ ∧
    (drawPass ⟨some 0, 0, 250, 128, 30, 12, 2, 1,
      [⟨"a".toList, 1⟩, ⟨"b".toList, 2⟩]⟩)[3]? =
        some (DrawCmd.setFont Font.u8g2_font_7x13_tf) ∧
    (drawPass ⟨some 0, 0, 250, 128, 30, 12, 2, 1,
      [⟨"a".toList, 1⟩, ⟨"b".toList, 2⟩]⟩)[4]? =
        some (DrawCmd.drawStr 2 ((250 + 25) % 256) "b".toList) ∧
    10 + 30 ≤ 255 ∧
    (lines_to_draw ⟨some 0, 0, 10, 128, 30, 12, 2, 1,
      [⟨"a".toList, 1⟩, ⟨"b".toList, 2⟩]⟩)[1]? = some ⟨"b".toList, 2⟩ ∧
    (drawPass ⟨some 0, 0, 10, 128, 30, 12, 2, 1,
      [⟨"a".toList, 1⟩, ⟨"b".toList, 2⟩]⟩)[4]? =
        some (DrawCmd.drawStr 2 (10 + 25) "b".toList) := by
  have h1 := (draw_pass_layout ⟨some 0, 0, 250, 128, 30, 12, 2, 1,
    [⟨"a".toList, 1⟩, ⟨"b".toList, 2⟩]⟩).2.2.1 1 ⟨"b".toList, 2⟩ (by decide)
  have h2 := (draw_pass_layout ⟨some 0, 0, 10, 128, 30, 12, 2, 1,
    [⟨"a".toList, 1⟩, ⟨"b".toList, 2⟩]⟩).2.2.2 (by decide) 1 ⟨"b".toList, 2⟩ (by decide)
  exact ⟨by decide, h1.1, h1.2, by decide, by decide, h2⟩

/-- C16: for a message without NUL character, `Terminal_print` appends
entries (the new buffer before eviction is the old one followed by them) whose
texts, joined with a single line-feed between consecutive ones, are the
message: nothing is truncated, wrapped or dropped. -/
theorem print_loses_nothing (term : Terminal) (msg : List Char)
    (hnul : ∀ c ∈ msg, c ≠ NUL) :
    ∃ appended : List TerminalLine,
      appendLines (std_string msg) term.font_size ((std_string msg).length + 1) 0
        term.buffer = some (term.buffer ++ appended) ∧
      Terminal_print term msg =
        some { term with buffer := evict term.max_lines (term.buffer ++ appended) } ∧
      List.intercalate [LF] (appended.map (fun line => line.text)) = msg := by
  refine ⟨tagged term.font_size (segments (std_string msg)),
    appendLines_eq _ _ _ 0 _ (Nat.zero_le _) (by omega), Terminal_print_eq term msg, ?_⟩
  rw [tagged_texts, segments_join, std_string_eq_self msg hnul]

/-- C16, witness: the message "ab\n\ncd" gives the texts "ab", "", "cd". -/
theorem print_loses_nothing_witness :
    (∀ c ∈ "ab\n\ncd".toList, c ≠ NUL) ∧
    ∃ appended : List TerminalLine,
      appendLines (std_string "ab\n\ncd".toList) 1
        ((std_string "ab\n\ncd".toList).length + 1) 0 [] = some ([] ++ appended) ∧
      Terminal_print ⟨some 0, 0, 0, 128, 24, 12, 2, 1, []⟩ "ab\n\ncd".toList =
        some ⟨some 0, 0, 0, 128, 24, 12, 2, 1, evict 2 ([] ++ appended)⟩ ∧
      List.intercalate [LF] (appended.map (fun line => line.text)) = "ab\n\ncd".toList :=
  ⟨by decide,
    print_loses_nothing ⟨some 0, 0, 0, 128, 24, 12, 2, 1, []⟩ "ab\n\ncd".toList (by decide)⟩

/-- C17: for a stored size in {1, 2, 3, 4} the height of the selection loop of
`Terminal_draw`, the height of its rendering loop and the `font_height` that
`Terminal_setFontSize` assigns for that size are equal, namely 12, 13, 15 and
20; for any other size both loops use 12, the height of size 1, and the font
lookup returns the font of size 1. -/
theorem height_tables_agree (term : Terminal) (size : Nat) :
    (size ∈ [1, 2, 3, 4] →
      select_line_height size = render_line_height size ∧
      render_line_height size = (Terminal_setFontSize term size).font_height ∧
      select_line_height size =
        (if size = 1 then 12 else if size = 2 then 13 else if size = 3 then 15 else 20)) ∧
    (size ∉ [1, 2, 3, 4] →
      select_line_height size = 12 ∧ render_line_height size = 12 ∧
      select_line_height 1 = 12 ∧ render_line_height 1 = 12 ∧
      getFontBySize size = Font.u8g2_font_6x12_tf ∧
      getFontBySize 1 = Font.u8g2_font_6x12_tf) := by
  constructor
  · intro h
    simp only [List.mem_cons, List.mem_singleton, List.mem_nil_iff, or_false] at h
    rcases h with rfl | rfl | rfl | rfl <;> exact ⟨rfl, rfl, rfl⟩
  · intro h
    simp only [List.mem_cons, List.mem_singleton, List.mem_nil_iff, or_false, not_or] at h
    obtain ⟨h1, h2, h3, h4⟩ := h
    rcases size with _ | _ | _ | _ | _ | size
    · exact ⟨rfl, rfl, rfl, rfl, rfl, rfl⟩
    · exact absurd rfl h1
    · exact absurd rfl h2
    · exact absurd rfl h3
    · exact absurd rfl h4
    · exact ⟨rfl, rfl, rfl, rfl, rfl, rfl⟩

/-- C17, witness: size 3 has height 15 in all three places; size 7 is treated
as size 1 by both loops and by the font lookup. -/
theorem height_tables_agree_witness :
    (3 ∈ [1, 2, 3, 4] ∧ select_line_height 3 = render_line_height 3 ∧
      render_line_height 3 =
        (Terminal_setFontSize ⟨some 0, 0, 0, 128, 64, 12, 5, 1, []⟩ 3).font_height ∧
      select_line_height 3 = 15) ∧
    (7 ∉ [1, 2, 3, 4] ∧ select_line_height 7 = 12 ∧ render_line_height 7 = 12 ∧
      getFontBySize 7 = Font.u8g2_font_6x12_tf) := by
  have h3 := (height_tables_agree ⟨some 0, 0, 0, 128, 64, 12, 5, 1, []⟩ 3).1 (by decide)
  have h7 := (height_tables_agree ⟨some 0, 0, 0, 128, 64, 12, 5, 1, []⟩ 7).2 (by decide)
  exact ⟨⟨by decide, h3.1, h3.2.1, h3.2.2⟩, ⟨by decide, h7.1, h7.2.1, h7.2.2.2.2.1⟩⟩

/-- C18: in every state reached from a `Terminal_init` call by a finite
sequence of `Terminal_init`, `Terminal_deinit`, `Terminal_clear`,
`Terminal_setFontSize` and `Terminal_print` calls, if `font_height` is the
table height of the current `font_size`, every buffered line carries that
`font_size` and the buffer length is at most `max_lines`, then a pass of
`Terminal_draw` selects and draws every buffered line.  Without the first
hypothesis this can fail: after `Terminal_init` with `height = 24` and
`font_height = 8` and a print of three lines, the buffer holds
`max_lines = 3` lines of the current size and only two are drawn. -/
theorem draw_shows_whole_buffer :
    (∀ (term0 term1 term : Terminal) (u8g2_ref x y width height font_height : Nat)
        (calls : List Call),
      Terminal_init term0 u8g2_ref x y width height font_height = some term1 →
      run term1 calls = some term →
      term.font_height = setFontSize_height term.font_size →
      (∀ line ∈ term.buffer, line.font_size = term.font_size) →
      term.buffer.length ≤ term.max_lines →
      lines_to_draw term = term.buffer ∧
      drawnTexts (drawPass term) = term.buffer.map (fun line => line.text)) ∧
    (∃ term1 term2, Terminal_init ⟨none, 0, 0, 0, 0, 0, 0, 1, []⟩ 0 0 0 128 24 8 = some term1 ∧
      run term1 [Call.print "a\nb\nc".toList] = some term2 ∧
      term2.buffer.length ≤ term2.max_lines ∧
      (∀ line ∈ term2.buffer, line.font_size = term2.font_size) ∧
      term2.font_height ≠ setFontSize_height term2.font_size ∧
      (drawnTexts (drawPass term2)).length < term2.buffer.length) := by
  constructor
  · intro term0 term1 term u8g2_ref x y width height font_height calls hinit hrun
      hheight hsizes hlen
    have hcap := run_capacity term1 term calls
      (Terminal_init_capacity term0 term1 u8g2_ref x y width height font_height hinit) hrun
    have hall := uniform_buffer_drawn term hcap hheight hsizes hlen
    exact ⟨hall, by rw [drawnTexts_drawPass, hall]⟩
  · exact ⟨⟨some 0, 0, 0, 128, 24, 8, 3, 1, []⟩,
      ⟨some 0, 0, 0, 128, 24, 8, 3, 1, [⟨"a".toList, 1⟩, ⟨"b".toList, 1⟩, ⟨"c".toList, 1⟩]⟩,
      by decide, by decide, by decide, by decide, by decide, by decide⟩

/-- C18, witness: a terminal initialised with height 30, set to size 2 and
given two lines holds two lines of size 2 with `font_height = 13` and
`max_lines = 2`, and both are drawn. -/
theorem draw_shows_whole_buffer_witness :
    Terminal_init ⟨none, 0, 0, 0, 0, 0, 0, 1, []⟩ 0 0 0 128 30 12 =
      some ⟨some 0, 0, 0, 128, 30, 12, 2, 1, []⟩ ∧
    run ⟨some 0, 0, 0, 128, 30, 12, 2, 1, []⟩
      [Call.setFontSize 2, Call.print "a\nb".toList] =
      some ⟨some 0, 0, 0, 128, 30, 13, 2, 2, [⟨"a".toList, 2⟩, ⟨"b".toList, 2⟩]⟩ ∧
    (⟨some 0, 0, 0, 128, 30, 13, 2, 2, [⟨"a".toList, 2⟩, ⟨"b".toList, 2⟩]⟩ :
      Terminal).font_height = setFontSize_height 2 ∧
    (∀ line ∈ [(⟨"a".toList, 2⟩ : TerminalLine), ⟨"b".toList, 2⟩], line.font_size = 2) ∧
    2 ≤ 2 ∧
    lines_to_draw ⟨some 0, 0, 0, 128, 30, 13, 2, 2, [⟨"a".toList, 2⟩, ⟨"b".toList, 2⟩]⟩ =
      [⟨"a".toList, 2⟩, ⟨"b".toList, 2⟩] ∧
    drawnTexts (drawPass
      ⟨some 0, 0, 0, 128, 30, 13, 2, 2, [⟨"a".toList, 2⟩, ⟨"b".toList, 2⟩]⟩) =
      ["a".toList, "b".toList] := by
  have h := draw_shows_whole_buffer.1 ⟨none, 0, 0, 0, 0, 0, 0, 1, []⟩
    ⟨some 0, 0, 0, 128, 30, 12, 2, 1, []⟩
    ⟨some 0, 0, 0, 128, 30, 13, 2, 2, [⟨"a".toList, 2⟩, ⟨"b".toList, 2⟩]⟩
    0 0 0 128 30 12 [Call.setFontSize 2, Call.print "a\nb".toList]
    (by decide) (by decide) (by decide) (by decide) (by decide)
  exact ⟨by decide, by decide, by decide, by decide, by decide, h.1, h.2⟩

/-- C19: when `y + height ≤ 255` the 8-bit drawing cursor does not wrap: the
baselines passed to `drawStr` in a pass are, one per selected line, `y` plus
the summed heights of the selected lines up to that one (no reduction modulo
256); they are strictly increasing from top to bottom, each greater than `y`
and at most `y + height`, and the last is `y` plus the total height of the
selected lines. -/
theorem cursor_does_not_wrap (term : Terminal) (hy : term.y + term.height ≤ 255) :
    (drawnYs (drawPass term)).length = (lines_to_draw term).length ∧
    (∀ i, i < (lines_to_draw term).length →
      (drawnYs (drawPass term))[i]? =
        some (term.y + heightSum ((lines_to_draw term).take (i + 1)))) ∧
    (drawnYs (drawPass term)).Pairwise (fun a b => a < b) ∧
    (∀ v ∈ drawnYs (drawPass term), term.y < v ∧ v ≤ term.y + term.height) ∧
    (lines_to_draw term ≠ [] →
      (drawnYs (drawPass term)).getLast? =
        some (term.y + heightSum (lines_to_draw term))) := by
  have hfit := lines_to_draw_fit term
  have e : drawnYs (drawPass term) = baselines term.y (lines_to_draw term) := by
    simp only [drawPass, drawnYs]
    exact drawnYs_renderLines term.x (lines_to_draw term) term.y (by omega)
  rw [e]
  refine ⟨baselines_length _ _, fun i hi => baselines_getElem _ _ i hi,
    baselines_increasing _ _, ?_, baselines_getLast _ _⟩
  intro v hv
  have := baselines_bounds _ _ v hv
  omega

/-- C19, witness: at `y = 10` with `height = 30` the lines of sizes 1 and 2
are drawn at baselines 22 and 35. -/
theorem cursor_does_not_wrap_witness :
    10 + 30 ≤ 255 ∧
    drawnYs (drawPass ⟨some 0, 0, 10, 128, 30, 12, 2, 1,
      [⟨"a".toList, 1⟩, ⟨"b".toList, 2⟩]⟩) = [22, 35] ∧
    (drawnYs (drawPass ⟨some 0, 0, 10, 128, 30, 12, 2, 1,
      [⟨"a".toList, 1⟩, ⟨"b".toList, 2⟩]⟩)).Pairwise (fun a b => a < b) ∧
    (∀ v ∈ drawnYs (drawPass ⟨some 0, 0, 10, 128, 30, 12, 2, 1,
      [⟨"a".toList, 1⟩, ⟨"b".toList, 2⟩]⟩), 10 < v ∧ v ≤ 10 + 30) := by
  have h := cursor_does_not_wrap
    ⟨some 0, 0, 10, 128, 30, 12, 2, 1, [⟨"a".toList, 1⟩, ⟨"b".toList, 2⟩]⟩ (by decide)
  exact ⟨by decide, by decide, h.2.2.1, h.2.2.2.1⟩

/-- C20: `Terminal_init` leaves `font_size` as it was, whatever its arguments:
any state it returns has the prior `font_size`; and with a positive
`font_height` it returns, a print that follows tags its entries with the
prior `font_size`, and `Terminal_draw` uses for them the table height and the
font of that size, not the `font_height` argument. -/
theorem init_keeps_font_size (term : Terminal) (u8g2_ref x y width height font_height : Nat)
    (msg : List Char) :
    (∀ term1, Terminal_init term u8g2_ref x y width height font_height = some term1 →
      term1.font_size = term.font_size) ∧
    (0 < font_height →
      ∃ term1 term2, Terminal_init term u8g2_ref x y width height font_height = some term1 ∧
        term1.font_size = term.font_size ∧
        Terminal_print term1 msg = some term2 ∧
        term2.font_size = term.font_size ∧
        term2.buffer = evict (height / font_height)
          (tagged term.font_size (segments (std_string msg))) ∧
        ∀ line ∈ term2.buffer, line.font_size = term.font_size ∧
          select_line_height line.font_size = setFontSize_height term.font_size ∧
          render_line_height line.font_size = setFontSize_height term.font_size ∧
          getFontBySize line.font_size = getFontBySize term.font_size) := by
  constructor
  · intro term1 h
    simp only [Terminal_init] at h
    split at h
    · cases h
    · cases h
      rfl
  · intro hpos
    refine ⟨_, _, Terminal_init_eq term u8g2_ref x y width height font_height hpos, rfl,
      Terminal_print_eq _ msg, rfl, by simp, ?_⟩
    intro line hline
    simp only [List.nil_append, evict_eq_drop] at hline
    have hsize := tagged_sizes _ _ line (List.mem_of_mem_drop hline)
    rw [hsize]
    exact ⟨rfl, rfl, rfl, rfl⟩

/-- C20, witness: a terminal set to size 4 is initialised again with
`font_height = 12` and printed to; the line is tagged 4 and drawn in the 10x20
font at baseline `y + 20`. -/
theorem init_keeps_font_size_witness :
    0 < 12 ∧
    Terminal_init ⟨some 0, 0, 0, 128, 64, 20, 3, 4, [⟨"old".toList, 4⟩]⟩ 0 0 0 128 64 12 =
      some ⟨some 0, 0, 0, 128, 64, 12, 5, 4, []⟩ ∧
    (⟨some 0, 0, 0, 128, 64, 12, 5, 4, []⟩ : Terminal).font_size = 4 ∧
    (∃ term1 term2,
      Terminal_init ⟨some 0, 0, 0, 128, 64, 20, 3, 4, [⟨"old".toList, 4⟩]⟩ 0 0 0 128 64 12 =
        some term1 ∧
      term1.font_size = 4 ∧
      Terminal_print term1 "a".toList = some term2 ∧
      term2.font_size = 4 ∧
      term2.buffer = evict (64 / 12) (tagged 4 (segments (std_string "a".toList))) ∧
      ∀ line ∈ term2.buffer, line.font_size = 4 ∧
        select_line_height line.font_size = setFontSize_height 4 ∧
        render_line_height line.font_size = setFontSize_height 4 ∧
        getFontBySize line.font_size = getFontBySize 4) ∧
    Terminal_print ⟨some 0, 0, 0, 128, 64, 12, 5, 4, []⟩ "a".toList =
      some ⟨some 0, 0, 0, 128, 64, 12, 5, 4, [⟨"a".toList, 4⟩]⟩ ∧
    drawPass ⟨some 0, 0, 0, 128, 64, 12, 5, 4, [⟨"a".toList, 4⟩]⟩ =
      [DrawCmd.drawFrame 0 0 128 64, DrawCmd.setFont Font.u8g2_font_10x20_tf,
        DrawCmd.drawStr 2 20 "a".toList] :=
  ⟨by decide, by decide,
    (init_keeps_font_size ⟨some 0, 0, 0, 128, 64, 20, 3, 4, [⟨"old".toList, 4⟩]⟩
      0 0 0 128 64 12 "a".toList).1 ⟨some 0, 0, 0, 128, 64, 12, 5, 4, []⟩ (by decide),
    (init_keeps_font_size ⟨some 0, 0, 0, 128, 64, 20, 3, 4, [⟨"old".toList, 4⟩]⟩
      0 0 0 128 64 12 "a".toList).2 (by decide),
    by decide, by decide⟩

end U8g2Terminal
